import Mathlib

/-!
Verification of the gemini-cli request/response pipeline.

Shallow embedding of `gemini-cli.c`: the conversation data model, the
request-payload encoder (`build_request_json`), the incremental SSE stream
decoder (`process_line` / `write_memory_callback`), the attachment ingestor
(`handle_attachment_from_stream`), the base64 encoder, and the MIME
classifier (`get_mime_type`).  JSON documents produced or consumed by the
program are modelled by the value tree `Json`; the external cJSON parser is
modelled as an arbitrary function `List Nat → Option Json` wherever the
claims quantify over its behaviour.  C `size_t` arithmetic is `Nat` with an
explicit `% 2 ^ 64` where the source can wrap.

The call-orchestrator retry policy, credential rotation and content-aware
MIME sniffing are documented in the repository's README and Changelog but
are not present in the provided C source snapshot; those three pieces are
modelled from the spec and are marked as such in their doc comments.
-/

namespace GeminiCli

/-! ## JSON documents (cJSON value trees) -/

/-- A JSON document as built by cJSON.  Numbers are modelled as `Int`
(the claims only involve integer-valued fields; the C `double` payloads of
`temperature` are integral in the modelled states). -/
inductive Json where
  | str (s : String)
  | num (n : Int)
  | obj (members : List (String × Json))
  | arr (items : List Json)

/-- ASCII lower-casing, as C `tolower` behaves on the key strings involved. -/
def lowerChar (c : Char) : Char :=
  if 'A' ≤ c ∧ c ≤ 'Z' then Char.ofNat (c.toNat + 32) else c

/-- Case-insensitive string comparison (cJSON compares object keys with a
case-insensitive `strcmp`). -/
def ciEqStr (a b : String) : Bool :=
  a.data.map lowerChar == b.data.map lowerChar

/-- Lookup of the first member with a matching key, as
`cJSON_GetObjectItem` walks an object's children. -/
def findMember (members : List (String × Json)) (key : String) : Option Json :=
  match members with
  | [] => none
  | (k, v) :: rest => if ciEqStr k key then some v else findMember rest key

/-- Model of `cJSON_GetObjectItem`. -/
def Json.getObjItem : Json → String → Option Json
  | .obj ms, key => findMember ms key
  | _, _ => none

/-- Model of `cJSON_GetArrayItem`. -/
def Json.getArrayItem : Json → Nat → Option Json
  | .arr items, i => items.get? i
  | _, _ => none

/-- Model of `cJSON_IsArray`. -/
def Json.isArray : Json → Bool
  | .arr _ => true
  | _ => false

/-! ## Conversation store (`Part`, `Content`, `History`) -/

/-- `PartType` from the source: `PART_TYPE_TEXT` or `PART_TYPE_FILE`. -/
inductive PartType where
  | text
  | file
deriving DecidableEq

/-- The `Part` struct: exactly the fields of the C struct, with `NULL`
pointers modelled as `none`. -/
structure Part where
  type : PartType
  text : Option String := none
  mime_type : Option String := none
  base64_data : Option String := none
  filename : Option String := none
deriving DecidableEq

/-- The `Content` struct: a role plus its ordered parts (the C pair of a
pointer and `num_parts` is a list). -/
structure Content where
  role : String
  parts : List Part
deriving DecidableEq

/-- `add_content_to_history` appends a deep copy of the given turn; on
immutable values the copy is the value itself. -/
def add_content_to_history (history : List Content) (role : String)
    (parts : List Part) : List Content :=
  history ++ [⟨role, parts⟩]

/-! ## Application state and the payload encoder -/

/-- The fields of `AppState` that the request/response pipeline reads.
`temperature` is a C `float`; it is carried abstractly as an `Int` since no
claim depends on its value. -/
structure AppState where
  api_key : String
  origin : String
  model_name : String
  temperature : Int
  max_output_tokens : Int
  thinking_budget : Int
  google_grounding : Bool
  url_context : Bool
  history : List Content
  system_prompt : Option String
  seed : Int

/-- Serialization of one `Part`, as in the inner loop of
`build_request_json`: text parts get a `text` member (omitted when the C
pointer is `NULL`), file parts get an `inlineData` object. -/
def partToJson (p : Part) : Json :=
  match p.type with
  | .text =>
    Json.obj (match p.text with
      | some t => [("text", Json.str t)]
      | none => [])
  | .file =>
    Json.obj [("inlineData", Json.obj
      [("mimeType", Json.str (p.mime_type.getD "")),
       ("data", Json.str (p.base64_data.getD ""))])]

/-- Serialization of one `Content` (role + parts). -/
def contentToJson (c : Content) : Json :=
  Json.obj [("role", Json.str c.role),
            ("parts", Json.arr (c.parts.map partToJson))]

/-- `build_request_json` (gemini-cli.c lines 1270-1331): optional
`systemInstruction`, then the `tools` array — added only when
`state->url_context && state->google_grounding`, with each entry again
guarded by its own flag — then `contents`, then `generationConfig` whose
members are `temperature`, `maxOutputTokens`, `seed` and a nested
`thinkingConfig` holding `thinkingBudget` (always added; the guard on
`thinking_budget > 0` is commented out in the source). -/
def build_request_json (state : AppState) : Json :=
  Json.obj
    ((match state.system_prompt with
      | some sp =>
        [("systemInstruction", Json.obj
          [("parts", Json.arr [Json.obj [("text", Json.str sp)]])])]
      | none => [])
    ++ (if state.url_context && state.google_grounding then
          [("tools", Json.arr
            ((if state.url_context then
                [Json.obj [("urlContext", Json.obj [])]] else [])
             ++ (if state.google_grounding then
                [Json.obj [("googleSearch", Json.obj [])]] else [])))]
        else [])
    ++ [("contents", Json.arr (state.history.map contentToJson))]
    ++ [("generationConfig", Json.obj
          [("temperature", Json.num state.temperature),
           ("maxOutputTokens", Json.num state.max_output_tokens),
           ("seed", Json.num state.seed),
           ("thinkingConfig", Json.obj
             [("thinkingBudget", Json.num state.thinking_budget)])])])

/-- Reads `generationConfig.thinkingConfig.thinkingBudget` out of a request
document. -/
def thinking_budget_of (j : Json) : Option Int :=
  match (((j.getObjItem "generationConfig").bind
          (·.getObjItem "thinkingConfig")).bind
          (·.getObjItem "thinkingBudget")) with
  | some (.num n) => some n
  | _ => none

/-- The `/budget` command handler (gemini-cli.c lines 505-521): a negative
argument is rejected (state unchanged); otherwise the budget is stored and
any stored value below 1 is replaced by the sentinel `-1`. -/
def budget_command (current : Int) (arg : Int) : Int :=
  if arg < 0 then current
  else if arg < 1 then -1 else arg

/-! Concrete states used to evaluate the encoder at the inputs that decide
claims C1 and C7. -/

/-- A state with `url_context` on and `google_grounding` off. -/
def c1_state : AppState :=
  { api_key := "k", origin := "default", model_name := "gemini-2.5-pro",
    temperature := 0, max_output_tokens := 65536, thinking_budget := -1,
    google_grounding := false, url_context := true, history := [],
    system_prompt := none, seed := 42 }

/-- A state whose stored thinking budget is `0` (reachable through
`-b 0`, which runs `state->thinking_budget = atoi("0")` with no clamping,
and through the `thinking_budget` field of the configuration file). -/
def c7_state : AppState :=
  { api_key := "k", origin := "default", model_name := "gemini-2.5-pro",
    temperature := 0, max_output_tokens := 65536, thinking_budget := 0,
    google_grounding := true, url_context := true, history := [],
    system_prompt := none, seed := 42 }

/-! ## The generate-session turn step (submission, response, rollback) -/

/-- One prompt-submission step of `generate_session` (gemini-cli.c lines
758-783 and 290-315): the user turn is appended to the history before the
API call; on success the model response is appended as a `"model"` turn;
on failure the just-added user turn is removed again
(`state.history.num_contents--` plus `free_content` of the last entry,
i.e. `dropLast`). -/
def submit_and_respond (history : List Content) (userParts : List Part)
    (apiResult : Option String) : List Content :=
  let h1 := add_content_to_history history "user" userParts
  match apiResult with
  | some resp =>
    add_content_to_history h1 "model" [{ type := .text, text := some resp }]
  | none => h1.dropLast

/-! ## Stream decoder (`process_line`, `write_memory_callback`) -/

/-- The bytes of the SSE line tag `"data: "` that `process_line` matches
with `strncmp(line, "data: ", 6)`. -/
def sse_data_tag : List Nat := [100, 97, 116, 97, 58, 32]

/-- The nested extraction inside `process_line` (gemini-cli.c lines
125-149): `candidates` must be an array, its first element's `content` and
`content`'s `parts` are looked up, `parts` must be an array, and the first
part's `text` must be a string. -/
def extract_stream_text (root : Json) : Option String :=
  match root.getObjItem "candidates" with
  | some (.arr items) =>
    match items.get? 0 with
    | some candidate =>
      match candidate.getObjItem "content" with
      | some content =>
        match content.getObjItem "parts" with
        | some (.arr parts) =>
          match parts.get? 0 with
          | some part =>
            match part.getObjItem "text" with
            | some (.str s) => some s
            | _ => none
          | none => none
        | _ => none
      | none => none
    | none => none
  | _ => none

/-- `process_line`: a line is considered only if it carries the `"data: "`
tag; the remainder is handed to the external cJSON parser (modelled by the
`parse` argument) and the first candidate's first part's text, when
present, is the line's contribution.  Every failure path returns `none`
(the line is silently skipped). -/
def process_line (parse : List Nat → Option Json) (line : List Nat) :
    Option String :=
  if line.take 6 = sse_data_tag then
    match parse (line.drop 6) with
    | some root => extract_stream_text root
    | none => none
  else none

/-- The `MemoryStruct` carried across stream callbacks: the unconsumed tail
bytes, plus (for the streaming callback) the fragments printed so far in
order and the accumulated `full_response`. -/
structure MemoryStruct where
  buffer : List Nat
  emitted : List String
  full_response : String
deriving DecidableEq

/-- Position of the next newline as `strchr(mem->buffer, '\n')` finds it:
the scan runs over the NUL-terminated string, so a 0 byte stops the search
before a later newline can be seen. -/
def find_newline : List Nat → Option Nat
  | [] => none
  | b :: rest =>
    if b = 0 then none
    else if b = 10 then some 0
    else (find_newline rest).map (· + 1)

/-- One iteration of the line-splitting loop: the line before the newline
at index `i` is handed to `process_line` (emitting text and growing
`full_response` when it yields some) and the consumed bytes — up to and
including the newline — are trimmed by the `memmove`. -/
def line_step (parse : List Nat → Option Json) (mem : MemoryStruct)
    (i : Nat) : MemoryStruct :=
  match process_line parse (mem.buffer.take i) with
  | some t =>
    ⟨mem.buffer.drop (i + 1), mem.emitted ++ [t], mem.full_response ++ t⟩
  | none => ⟨mem.buffer.drop (i + 1), mem.emitted, mem.full_response⟩

/-- The line-splitting loop of `write_memory_callback`: while a newline is
found, run `line_step`.  Each iteration consumes at least one byte, so fuel
equal to the buffer length makes the fuelled loop agree with the C
`while`. -/
def drain_lines (parse : List Nat → Option Json) :
    Nat → MemoryStruct → MemoryStruct
  | 0, mem => mem
  | fuel + 1, mem =>
    match find_newline mem.buffer with
    | none => mem
    | some i => drain_lines parse fuel (line_step parse mem i)

/-- The loop run with exactly enough fuel for its buffer. -/
def drain_all (parse : List Nat → Option Json) (mem : MemoryStruct) :
    MemoryStruct :=
  drain_lines parse mem.buffer.length mem

/-- `write_memory_callback`: append the delivered chunk to the carry buffer
and split off every complete line. -/
def write_memory_callback (parse : List Nat → Option Json)
    (mem : MemoryStruct) (chunk : List Nat) : MemoryStruct :=
  drain_all parse ⟨mem.buffer ++ chunk, mem.emitted, mem.full_response⟩

/-- Deliver a sequence of transport chunks to the callback in order. -/
def feed_chunks (parse : List Nat → Option Json) (mem : MemoryStruct)
    (chunks : List (List Nat)) : MemoryStruct :=
  chunks.foldl (write_memory_callback parse) mem

/-- The freshly initialised `MemoryStruct` of `send_api_request`. -/
def initial_memory : MemoryStruct := ⟨[], [], ""⟩

/-! ## Base64 encoder -/

/-- The encoder's alphabet `b64_chars`. -/
def b64_chars : List Char :=
  "ABCDEFGHIJKLMNOPQRSTUVWXYZabcdefghijklmnopqrstuvwxyz0123456789+/".data

/-- Indexing into the alphabet; every index the encoder produces is already
masked below 64. -/
def b64_char (n : Nat) : Char := b64_chars.getD n 'A'

/-- One iteration of the `base64_encode` loop: three octets packed into a
24-bit `triple` and split into four sextets. -/
def encode_triple (a b c : Nat) : List Char :=
  let triple := a * 65536 + b * 256 + c
  [b64_char (triple / 262144 % 64), b64_char (triple / 4096 % 64),
   b64_char (triple / 64 % 64), b64_char (triple % 64)]

/-- The full encoding loop: missing trailing octets are read as 0, exactly
as the guarded `data[i++] : 0` accesses do. -/
def encode_groups : List Nat → List Char
  | a :: b :: c :: rest => encode_triple a b c ++ encode_groups rest
  | [a, b] => encode_triple a b 0
  | [a] => encode_triple a 0 0
  | [] => []

/-- `mod_table[input_length % 3]`: how many trailing output characters are
overwritten with `'='`. -/
def pad_length (n : Nat) : Nat := [0, 2, 1].getD (n % 3) 0

/-- `base64_encode`: the grouped encoding with the last `pad_length`
characters overwritten by `'='`. -/
def base64_encode (l : List Nat) : List Char :=
  let raw := encode_groups l
  raw.take (raw.length - pad_length l.length)
    ++ List.replicate (pad_length l.length) '='

/-- Modelled from the spec: the standard base64 decoder (the inverse the
claim's round-trip refers to; no decoder exists in the source).  A character
maps to its index in the alphabet. -/
def b64_value (c : Char) : Option Nat :=
  let i := b64_chars.indexOf c
  if i < 64 then some i else none

/-- Modelled from the spec: regroup sextets into octets; 2 or 3 leftover
characters yield 1 or 2 final octets, a single leftover is malformed. -/
def decode_groups : List Char → Option (List Nat)
  | [] => some []
  | [c1, c2] =>
    match b64_value c1, b64_value c2 with
    | some v1, some v2 => some [v1 * 4 + v2 / 16]
    | _, _ => none
  | [c1, c2, c3] =>
    match b64_value c1, b64_value c2, b64_value c3 with
    | some v1, some v2, some v3 =>
      some [v1 * 4 + v2 / 16, v2 % 16 * 16 + v3 / 4]
    | _, _, _ => none
  | c1 :: c2 :: c3 :: c4 :: rest =>
    match b64_value c1, b64_value c2, b64_value c3, b64_value c4,
          decode_groups rest with
    | some v1, some v2, some v3, some v4, some bytes =>
      some ([v1 * 4 + v2 / 16, v2 % 16 * 16 + v3 / 4, v3 % 4 * 64 + v4]
        ++ bytes)
    | _, _, _, _, _ => none
  | [_] => none

/-- Modelled from the spec: trailing `'='` padding is discarded before
regrouping. -/
def strip_padding (s : List Char) : List Char :=
  (s.reverse.dropWhile (· == '=')).reverse

/-- Modelled from the spec: the full decoder. -/
def base64_decode (s : List Char) : Option (List Nat) :=
  decode_groups (strip_padding s)

/-! ## Attachment ingestor (`handle_attachment_from_stream`) -/

/-- The non-seekable read loop of `handle_attachment_from_stream`
(gemini-cli.c lines 1646-1674): `fread` delivers up to 1024 bytes per call;
after each successful read, if fewer than 1024 bytes of capacity remain the
capacity is doubled, aborting (`none`) if the doubled `size_t` value wrapped
to at most the old capacity.  The loop consumes at least 1024 bytes per
iteration, so fuel above the input length makes the fuelled loop agree with
the C `while`.  Returns the final `total_read` and the number of doublings
performed. -/
def read_stream_loop (parse_fuel : Nat) (remaining : List Nat)
    (total capacity doubles : Nat) : Option (Nat × Nat) :=
  match parse_fuel with
  | 0 => none
  | fuel + 1 =>
    let bytes_read := min 1024 remaining.length
    if bytes_read = 0 then some (total, doubles)
    else
      let total' := total + bytes_read
      let remaining' := remaining.drop 1024
      if capacity - total' < 1024 then
        let new_capacity := capacity * 2 % 2 ^ 64
        if new_capacity ≤ capacity then none
        else read_stream_loop fuel remaining' total' new_capacity (doubles + 1)
      else read_stream_loop fuel remaining' total' capacity doubles

/-- `handle_attachment_from_stream` on a non-seekable source delivering
`input`: run the read loop from the fixed 32 KiB initial capacity; an empty
read registers nothing (non-fatal warning), an aborted read registers
nothing, and otherwise the registered attachment's payload is
`base64_encode` of the bytes read.  The result pairs the payload with the
number of capacity doublings performed. -/
def handle_attachment_from_stream (input : List Nat) :
    Option (List Char × Nat) :=
  match read_stream_loop (input.length + 1) input 0 (32 * 1024) 0 with
  | some (total, doubles) =>
    if total = 0 then none
    else some (base64_encode (input.take total), doubles)
  | none => none

/-! ## MIME classification -/

/-- `get_mime_type`: the position of the last `'.'` of the filename, as
`strrchr(filename, '.')` finds it. -/
def last_dot_index : List Char → Option Nat
  | [] => none
  | c :: rest =>
    match last_dot_index rest with
    | some i => some (i + 1)
    | none => if c = '.' then some 0 else none

/-- Case-insensitive comparison of a filename suffix against an extension
literal, as the `STRCASECMP(dot, ".ext") == 0` tests do. -/
def ciEqChars (a : List Char) (b : String) : Bool :=
  a.map lowerChar == b.data.map lowerChar

/-- `get_mime_type` (gemini-cli.c lines 1726-1747): purely extension-based
in the provided source.  No dot, or a dot as the very first character,
falls through to `"text/plain"`, as does any unrecognised extension. -/
def get_mime_type (name : List Char) : String :=
  match last_dot_index name with
  | none => "text/plain"
  | some 0 => "text/plain"
  | some (i + 1) =>
    let ext := name.drop (i + 1)
    if ciEqChars ext ".txt" then "text/plain"
    else if ciEqChars ext ".c" || ciEqChars ext ".h" || ciEqChars ext ".cpp"
      || ciEqChars ext ".hpp" || ciEqChars ext ".py" || ciEqChars ext ".js"
      || ciEqChars ext ".ts" || ciEqChars ext ".java" || ciEqChars ext ".cs"
      || ciEqChars ext ".go" || ciEqChars ext ".rs" || ciEqChars ext ".sh"
      || ciEqChars ext ".rb" || ciEqChars ext ".php" || ciEqChars ext ".css"
      || ciEqChars ext ".md" then "text/plain"
    else if ciEqChars ext ".html" then "text/html"
    else if ciEqChars ext ".json" then "application/json"
    else if ciEqChars ext ".xml" then "application/xml"
    else if ciEqChars ext ".jpg" || ciEqChars ext ".jpeg" then "image/jpeg"
    else if ciEqChars ext ".png" then "image/png"
    else if ciEqChars ext ".gif" then "image/gif"
    else if ciEqChars ext ".webp" then "image/webp"
    else if ciEqChars ext ".pdf" then "application/pdf"
    else "text/plain"

/-- The eight PNG signature bytes. -/
def png_signature : List Nat := [137, 80, 78, 71, 13, 10, 26, 10]

/-- Whether any of the known binary signatures (png, jpeg, gif, webp)
matches the leading content bytes. -/
def has_known_signature (content : List Nat) : Bool :=
  content.take 8 == png_signature
  || content.take 3 == [255, 216, 255]
  || content.take 6 == [71, 73, 70, 56, 55, 97]
  || content.take 6 == [71, 73, 70, 56, 57, 97]
  || (content.take 4 == [82, 73, 70, 70]
      && (content.drop 8).take 4 == [87, 69, 66, 80])

/-- Modelled from the spec: the content-aware rewrite of `get_mime_type`
(spec §4.4; Changelog "Smarter MIME Type Detection") is not in the provided
source snapshot, which holds only the extension mapping.  Leading content
bytes are checked against the known binary signatures first; when
inconclusive, classification falls back to the extension mapping of the
source's `get_mime_type`. -/
def sniff_mime_type (content : List Nat) (name : List Char) : String :=
  if content.take 8 == png_signature then "image/png"
  else if content.take 3 == [255, 216, 255] then "image/jpeg"
  else if content.take 6 == [71, 73, 70, 56, 55, 97]
    || content.take 6 == [71, 73, 70, 56, 57, 97] then "image/gif"
  else if content.take 4 == [82, 73, 70, 70]
    && (content.drop 8).take 4 == [87, 69, 66, 80] then "image/webp"
  else get_mime_type name

/-! ## Call orchestrator (retry and credential rotation) -/

/-- The outcome of one transport invocation: a 2xx success with the
response payload, a non-2xx HTTP status, or a failure before any status
was obtained (negative CURLcode in the source). -/
inductive TransportOutcome where
  | ok (payload : String)
  | http (code : Nat)
  | curlError (code : Int)
deriving DecidableEq

/-- The normalized result of one logical operation, following the spec's
taxonomy (§4.5, §7). -/
inductive CallResult where
  | success (payload : String)
  | auth
  | fatalService
  | transportFailure (code : Int)
deriving DecidableEq

/-- Modelled from the spec: the retry policy of the call orchestrator
(spec §4.5; README/Changelog "Automatic API Retries" — absent from the
provided source snapshot, whose `perform_api_curl_request` performs a
single invocation).  HTTP 503 is Transient and retries the same operation
while retries remain, escalating to Fatal-Service when the budget is
exhausted; 401/403 is Auth with no same-credential retry; any other
non-2xx status is Fatal-Service; a pre-status failure is Transport.
The second component counts transport invocations. -/
def classify_and_retry (transport : Nat → TransportOutcome) :
    Nat → Nat → CallResult × Nat
  | attempt, retriesLeft =>
    match transport attempt with
    | .ok p => (.success p, attempt + 1)
    | .http code =>
      if code = 503 then
        match retriesLeft with
        | 0 => (.fatalService, attempt + 1)
        | r + 1 => classify_and_retry transport (attempt + 1) r
      else if code = 401 || code = 403 then (.auth, attempt + 1)
      else (.fatalService, attempt + 1)
    | .curlError e => (.transportFailure e, attempt + 1)

/-- Modelled from the spec: one logical operation retries up to 3 times
(4 attempts total). -/
def execute_operation (transport : Nat → TransportOutcome) :
    CallResult × Nat :=
  classify_and_retry transport 0 3

/-- A transport that fails with 503 on attempts 0, 1, 2 and succeeds on
attempt 3. -/
def c2_transport_recovers : Nat → TransportOutcome :=
  fun i => if i < 3 then .http 503 else .ok "payload"

/-- A transport that fails with 503 on every attempt. -/
def c2_transport_exhausts : Nat → TransportOutcome :=
  fun _ => .http 503

/-- The credential set: ordered (key, origin) pairs plus the rotation
cursor. -/
structure CredSet where
  keys : List (String × String)
  cursor : Nat

/-- Modelled from the spec: credential selection of the call orchestrator
(spec §4.5; README/Changelog "Automatic Key Rotation" — absent from the
provided source snapshot, whose `AppState` holds a single `api_key`).  An
empty set selects nothing (key-free fallback); otherwise the credential at
the cursor is selected and the cursor advances round-robin. -/
def select_credential (cs : CredSet) : Option (String × String) × CredSet :=
  match cs.keys with
  | [] => (none, cs)
  | k :: _ =>
    (some (cs.keys.getD (cs.cursor % cs.keys.length) k),
     ⟨cs.keys, (cs.cursor + 1) % cs.keys.length⟩)

/-- The credentials selected by `n` consecutive successful calls, with the
final set state. -/
def run_rotation (cs : CredSet) : Nat → List (Option (String × String)) × CredSet
  | 0 => ([], cs)
  | n + 1 =>
    let (sel, cs') := select_credential cs
    let (rest, final) := run_rotation cs' n
    (sel :: rest, final)

/-! ## Theorems -/

/-- C5: for every conversation history, a failed API call for a
just-submitted user turn rolls that turn back, leaving the history equal to
its state before the submission; on success the model response is appended
as a new `"model"` turn after the user turn. -/
theorem history_rollback_on_failure (history : List Content)
    (userParts : List Part) :
    submit_and_respond history userParts none = history
    ∧ ∀ resp, submit_and_respond history userParts (some resp) =
        history ++ [⟨"user", userParts⟩,
          ⟨"model", [{ type := .text, text := some resp }]⟩] := by
  constructor
  · simp [submit_and_respond, add_content_to_history]
  · intro resp
    simp [submit_and_respond, add_content_to_history]

/-- C1: the code gates the whole `tools` array on both flags being set, so
the state with `url_context` enabled and `google_grounding` disabled —
where the claim requires a `tools` array holding exactly an `urlContext`
entry — produces a request document with no `tools` member at all. -/
theorem tools_gate_requires_both_flags :
    c1_state.url_context = true ∧ c1_state.google_grounding = false ∧
    (build_request_json c1_state).getObjItem "tools" = none :=
  ⟨rfl, rfl, rfl⟩

/-- C7 counterexample: a state whose stored thinking budget is `0`
(reachable via `-b 0` or the configuration file) encodes
`thinkingBudget = 0`, not the sentinel `-1` the claim requires for every
budget ≤ 0. -/
theorem thinking_budget_zero_not_sentinel :
    c7_state.thinking_budget ≤ 0 ∧
    thinking_budget_of (build_request_json c7_state) = some 0 ∧
    (0 : Int) ≠ -1 :=
  ⟨by decide, rfl, by decide⟩

/-- C7 (amended): the request document always contains
`generationConfig.thinkingConfig.thinkingBudget` — never omitted — and its
value is the state's stored thinking budget, unchanged. -/
theorem thinking_budget_always_emitted (s : AppState) :
    thinking_budget_of (build_request_json s) = some s.thinking_budget := by
  cases hsp : s.system_prompt <;>
  cases hflags : s.url_context && s.google_grounding <;>
    simp +decide [build_request_json, thinking_budget_of, hsp, hflags,
      Json.getObjItem, findMember]

/-- C2 (spec-modelled): a run of three consecutive 503 failures followed by
a success yields overall success with exactly 4 transport invocations, and
a fourth consecutive 503 failure yields Fatal-Service after exactly 4
transport invocations. -/
theorem call_orchestrator_retry_503 :
    (∀ (t : Nat → TransportOutcome) (p : String),
        (∀ i, i < 3 → t i = .http 503) → t 3 = .ok p →
        execute_operation t = (.success p, 4))
    ∧ (∀ t : Nat → TransportOutcome,
        (∀ i, i < 4 → t i = .http 503) →
        execute_operation t = (.fatalService, 4)) := by
  constructor
  · intro t p h503 hok
    have h0 := h503 0 (by omega)
    have h1 := h503 1 (by omega)
    have h2 := h503 2 (by omega)
    simp [execute_operation, classify_and_retry, h0, h1, h2, hok]
  · intro t h503
    have h0 := h503 0 (by omega)
    have h1 := h503 1 (by omega)
    have h2 := h503 2 (by omega)
    have h3 := h503 3 (by omega)
    simp [execute_operation, classify_and_retry, h0, h1, h2, h3]

/-- C2 witness: the retry theorem applied to two concrete transports. -/
theorem call_orchestrator_retry_503_witness :
    execute_operation c2_transport_recovers = (.success "payload", 4)
    ∧ execute_operation c2_transport_exhausts = (.fatalService, 4) :=
  ⟨call_orchestrator_retry_503.1 c2_transport_recovers "payload"
      (by decide) (by decide),
   call_orchestrator_retry_503.2 c2_transport_exhausts (by decide)⟩

/-- Rotation over the three-credential set, from an arbitrary valid
cursor: the i-th selection is the entry at `(cursor + i) % 3`, and the
final cursor is `(cursor + n) % 3`. -/
theorem run_rotation_three (a b c : String × String) :
    ∀ (n cursor : Nat), cursor < 3 →
      (run_rotation ⟨[a, b, c], cursor⟩ n).1
        = (List.range n).map
            (fun i => some ([a, b, c].getD ((cursor + i) % 3) a))
      ∧ (run_rotation ⟨[a, b, c], cursor⟩ n).2.cursor = (cursor + n) % 3 := by
  intro n
  induction n with
  | zero =>
    intro cursor h
    simp [run_rotation, Nat.mod_eq_of_lt h]
  | succ n ih =>
    intro cursor h
    obtain ⟨ih1, ih2⟩ := ih ((cursor + 1) % 3) (Nat.mod_lt _ (by omega))
    have hlen : ([a, b, c] : List (String × String)).length = 3 := rfl
    constructor
    · simp only [run_rotation, select_credential, hlen,
        List.range_succ_eq_map, List.map_cons, List.map_map]
      congr 1
      rw [ih1]
      apply List.map_congr_left
      intro i _
      have harith : ((cursor + 1) % 3 + i) % 3 = (cursor + (i + 1)) % 3 := by
        omega
      simp [Function.comp, harith]
    · simp only [run_rotation, select_credential, hlen, ih2]
      omega

/-- C3 (spec-modelled): with credentials `[A, B, C]` and rotation cursor 0,
`n` consecutive successful calls select credentials round-robin
`A, B, C, A, …`; the cursor stays a valid index after every run, and one
selection step keeps the cursor a valid index whenever the set is
nonempty. -/
theorem credential_rotation_round_robin (a b c : String × String) (n : Nat) :
    (run_rotation ⟨[a, b, c], 0⟩ n).1
      = (List.range n).map (fun i => some ([a, b, c].getD (i % 3) a))
    ∧ (run_rotation ⟨[a, b, c], 0⟩ n).2.cursor < 3
    ∧ (∀ cs : CredSet, cs.keys = [] ∨
        (select_credential cs).2.cursor < cs.keys.length) := by
  obtain ⟨h1, h2⟩ := run_rotation_three a b c n 0 (by omega)
  refine ⟨?_, ?_, ?_⟩
  · simpa using h1
  · rw [h2]; omega
  · rintro ⟨keys, cursor⟩
    cases keys with
    | nil => exact Or.inl rfl
    | cons k rest =>
      refine Or.inr ?_
      simp only [select_credential]
      exact Nat.mod_lt _ (by simp)

/-- A newline found by the scan lies inside the buffer. -/
theorem find_newline_lt :
    ∀ (l : List Nat) (i : Nat), find_newline l = some i → i < l.length := by
  intro l
  induction l with
  | nil => intro i h; simp [find_newline] at h
  | cons b rest ih =>
    intro i h
    by_cases h0 : b = 0
    · simp [find_newline, h0] at h
    · by_cases h10 : b = 10
      · simp [find_newline, h0, h10] at h
        simp [List.length_cons]
        omega
      · simp [find_newline, h0, h10, Option.map_eq_some'] at h
        obtain ⟨j, hj, hji⟩ := h
        have := ih j hj
        simp [List.length_cons]
        omega

/-- The first newline found is stable under appending further bytes. -/
theorem find_newline_append_some :
    ∀ (l₁ l₂ : List Nat) (i : Nat), find_newline l₁ = some i →
      find_newline (l₁ ++ l₂) = some i := by
  intro l₁
  induction l₁ with
  | nil => intro l₂ i h; simp [find_newline] at h
  | cons b rest ih =>
    intro l₂ i h
    by_cases h0 : b = 0
    · simp [find_newline, h0] at h
    · by_cases h10 : b = 10
      · simp [find_newline, h0, h10] at h ⊢
        exact h
      · simp only [find_newline, h0, h10, if_false, List.cons_append,
          if_neg h0, if_neg h10, Option.map_eq_some'] at h ⊢
        obtain ⟨j, hj, hji⟩ := h
        exact ⟨j, ih l₂ j hj, hji⟩

/-- When a 0-free buffer holds no newline, the scan continues into appended
bytes, with indices shifted. -/
theorem find_newline_append_none :
    ∀ (l₁ l₂ : List Nat), find_newline l₁ = none → (0 : Nat) ∉ l₁ →
      find_newline (l₁ ++ l₂) = (find_newline l₂).map (· + l₁.length) := by
  intro l₁
  induction l₁ with
  | nil =>
    intro l₂ _ _
    cases hl : find_newline l₂ <;> simp [hl]
  | cons b rest ih =>
    intro l₂ hn hmem
    have hb0 : b ≠ 0 := by
      intro h; exact hmem (by simp [h])
    by_cases h10 : b = 10
    · simp [find_newline, hb0, h10] at hn
    · have hrest : find_newline rest = none := by
        simpa [find_newline, hb0, h10, Option.map_eq_none'] using hn
      have h0r : (0 : Nat) ∉ rest := fun h => hmem (List.mem_cons_of_mem _ h)
      have hih := ih l₂ hrest h0r
      rw [List.cons_append]
      simp only [find_newline, if_neg hb0, if_neg h10, hih]
      cases hl : find_newline l₂ <;>
        simp [hl, List.length_cons, Nat.add_assoc]

/-- A buffer containing neither a 0 byte nor a newline yields no line. -/
theorem find_newline_eq_none :
    ∀ l : List Nat, (0 : Nat) ∉ l → (10 : Nat) ∉ l →
      find_newline l = none := by
  intro l
  induction l with
  | nil => intro _ _; rfl
  | cons b rest ih =>
    intro h0 h10
    have hb0 : b ≠ 0 := fun h => h0 (by simp [h])
    have hb10 : b ≠ 10 := fun h => h10 (by simp [h])
    simp [find_newline, hb0, hb10,
      ih (fun h => h0 (List.mem_cons_of_mem _ h))
         (fun h => h10 (List.mem_cons_of_mem _ h))]

/-- The loop is the identity on a buffer with no complete line. -/
theorem drain_lines_eq_of_none (parse : List Nat → Option Json)
    (mem : MemoryStruct) (h : find_newline mem.buffer = none) :
    ∀ fuel, drain_lines parse fuel mem = mem := by
  intro fuel
  cases fuel with
  | zero => rfl
  | succ k => simp [drain_lines, h]

/-- One `line_step` shortens the buffer. -/
theorem line_step_length_le (parse : List Nat → Option Json)
    (mem : MemoryStruct) (i : Nat) (hfn : find_newline mem.buffer = some i) :
    ∀ m : Nat, mem.buffer.length ≤ m + 1 →
      (line_step parse mem i).buffer.length ≤ m := by
  intro m hm
  have hi := find_newline_lt mem.buffer i hfn
  cases hpl : process_line parse (mem.buffer.take i) <;>
    simp [line_step, hpl, List.length_drop] <;> omega

/-- Any fuel at least the buffer length drives the loop to its fixpoint. -/
theorem drain_lines_fuel_inv (parse : List Nat → Option Json) :
    ∀ (f₁ f₂ : Nat) (mem : MemoryStruct),
      mem.buffer.length ≤ f₁ → mem.buffer.length ≤ f₂ →
      drain_lines parse f₁ mem = drain_lines parse f₂ mem := by
  intro f₁
  induction f₁ with
  | zero =>
    intro f₂ mem h1 _
    have hnil : mem.buffer = [] :=
      List.eq_nil_of_length_eq_zero (Nat.le_zero.mp h1)
    have hn : find_newline mem.buffer = none := by rw [hnil]; rfl
    simp [drain_lines_eq_of_none parse mem hn]
  | succ k ih =>
    intro f₂ mem h1 h2
    cases f₂ with
    | zero =>
      have hnil : mem.buffer = [] :=
        List.eq_nil_of_length_eq_zero (Nat.le_zero.mp h2)
      have hn : find_newline mem.buffer = none := by rw [hnil]; rfl
      simp [drain_lines_eq_of_none parse mem hn]
    | succ k₂ =>
      cases hfn : find_newline mem.buffer with
      | none => simp [drain_lines, hfn]
      | some i =>
        simp only [drain_lines, hfn]
        exact ih k₂ (line_step parse mem i)
          (line_step_length_le parse mem i hfn k h1)
          (line_step_length_le parse mem i hfn k₂ h2)

/-- Unfolding one iteration of the fully-fuelled loop. -/
theorem drain_all_step (parse : List Nat → Option Json) (mem : MemoryStruct)
    (i : Nat) (hfn : find_newline mem.buffer = some i) :
    drain_all parse mem = drain_all parse (line_step parse mem i) := by
  have hi := find_newline_lt mem.buffer i hfn
  obtain ⟨k, hk⟩ : ∃ k, mem.buffer.length = k + 1 :=
    ⟨mem.buffer.length - 1, by omega⟩
  unfold drain_all
  rw [hk]
  simp only [drain_lines, hfn]
  exact drain_lines_fuel_inv parse k _ (line_step parse mem i)
    (line_step_length_le parse mem i hfn k (by omega)) (le_refl _)

/-- After the loop runs to its fixpoint, no complete line remains. -/
theorem find_newline_drain_lines (parse : List Nat → Option Json) :
    ∀ (fuel : Nat) (mem : MemoryStruct), mem.buffer.length ≤ fuel →
      find_newline (drain_lines parse fuel mem).buffer = none := by
  intro fuel
  induction fuel with
  | zero =>
    intro mem h
    have hnil : mem.buffer = [] :=
      List.eq_nil_of_length_eq_zero (Nat.le_zero.mp h)
    show find_newline mem.buffer = none
    rw [hnil]; rfl
  | succ k ih =>
    intro mem h
    cases hfn : find_newline mem.buffer with
    | none => simpa [drain_lines, hfn] using hfn
    | some i =>
      simp only [drain_lines, hfn]
      exact ih (line_step parse mem i) (line_step_length_le parse mem i hfn k h)

/-- Feeding further bytes to a drained state decodes exactly as if those
bytes had arrived together with the already-drained ones. -/
theorem write_after_drain (parse : List Nat → Option Json) :
    ∀ (n : Nat) (buf : List Nat) (e : List String) (f : String)
      (ext : List Nat), buf.length ≤ n →
      write_memory_callback parse (drain_all parse ⟨buf, e, f⟩) ext
        = drain_all parse ⟨buf ++ ext, e, f⟩ := by
  intro n
  induction n with
  | zero =>
    intro buf e f ext h
    have hnil : buf = [] := List.eq_nil_of_length_eq_zero (Nat.le_zero.mp h)
    subst hnil
    rfl
  | succ n ih =>
    intro buf e f ext h
    cases hfn : find_newline buf with
    | none =>
      have hd : drain_all parse ⟨buf, e, f⟩ = ⟨buf, e, f⟩ :=
        drain_lines_eq_of_none parse ⟨buf, e, f⟩ hfn _
      rw [hd]
      rfl
    | some i =>
      have hi := find_newline_lt buf i hfn
      have hfn₂ : find_newline (buf ++ ext) = some i :=
        find_newline_append_some buf ext i hfn
      have htake : (buf ++ ext).take i = buf.take i :=
        List.take_append_of_le_length (by omega)
      have hdrop : (buf ++ ext).drop (i + 1) = buf.drop (i + 1) ++ ext :=
        List.drop_append_of_le_length (by omega)
      rw [drain_all_step parse ⟨buf, e, f⟩ i hfn,
        drain_all_step parse ⟨buf ++ ext, e, f⟩ i hfn₂]
      have hlen : (buf.drop (i + 1)).length ≤ n := by
        simp [List.length_drop]; omega
      cases hpl : process_line parse (buf.take i) with
      | some t =>
        have hls₁ : line_step parse ⟨buf, e, f⟩ i
            = ⟨buf.drop (i + 1), e ++ [t], f ++ t⟩ := by
          simp [line_step, hpl]
        have hls₂ : line_step parse ⟨buf ++ ext, e, f⟩ i
            = ⟨buf.drop (i + 1) ++ ext, e ++ [t], f ++ t⟩ := by
          simp [line_step, htake, hpl, hdrop]
        rw [hls₁, hls₂]
        exact ih (buf.drop (i + 1)) (e ++ [t]) (f ++ t) ext hlen
      | none =>
        have hls₁ : line_step parse ⟨buf, e, f⟩ i
            = ⟨buf.drop (i + 1), e, f⟩ := by
          simp [line_step, hpl]
        have hls₂ : line_step parse ⟨buf ++ ext, e, f⟩ i
            = ⟨buf.drop (i + 1) ++ ext, e, f⟩ := by
          simp [line_step, htake, hpl, hdrop]
        rw [hls₁, hls₂]
        exact ih (buf.drop (i + 1)) e f ext hlen

/-- Delivering any chunking of a byte stream to a drained state equals
delivering its concatenation at once. -/
theorem feed_chunks_join (parse : List Nat → Option Json) :
    ∀ (chunks : List (List Nat)) (mem : MemoryStruct),
      find_newline mem.buffer = none →
      feed_chunks parse mem chunks
        = write_memory_callback parse mem chunks.flatten := by
  intro chunks
  induction chunks with
  | nil =>
    intro mem h
    have : write_memory_callback parse mem [] = mem := by
      show drain_all parse ⟨mem.buffer ++ [], mem.emitted, mem.full_response⟩
        = mem
      simp only [List.append_nil]
      exact drain_lines_eq_of_none parse
        ⟨mem.buffer, mem.emitted, mem.full_response⟩ h _
    simpa [feed_chunks] using this.symm
  | cons c cs ih =>
    intro mem h
    have hstep : feed_chunks parse mem (c :: cs)
        = feed_chunks parse (write_memory_callback parse mem c) cs := by
      simp [feed_chunks]
    have hdrained :
        find_newline (write_memory_callback parse mem c).buffer = none :=
      find_newline_drain_lines parse _ _ (le_refl _)
    rw [hstep, ih (write_memory_callback parse mem c) hdrained]
    have hcore := write_after_drain parse (mem.buffer ++ c).length
      (mem.buffer ++ c) mem.emitted mem.full_response cs.flatten (le_refl _)
    calc write_memory_callback parse (write_memory_callback parse mem c)
            cs.flatten
        = drain_all parse
            ⟨mem.buffer ++ c ++ cs.flatten, mem.emitted, mem.full_response⟩ :=
          hcore
      _ = write_memory_callback parse mem (c :: cs).flatten := by
          simp [write_memory_callback, List.append_assoc]

/-- C4: for every response byte sequence, feeding it to the stream decoder
as a single chunk and feeding it one byte at a time produce the same
accumulated full-response text and the same sequence of emitted fragments
in the same order (so in particular a chunk boundary inside a `data: `
line still yields exactly one parsed event for that line). -/
theorem stream_decoder_chunk_invariance (parse : List Nat → Option Json)
    (bytes : List Nat) :
    (feed_chunks parse initial_memory (bytes.map fun b => [b])).emitted
      = (write_memory_callback parse initial_memory bytes).emitted
    ∧ (feed_chunks parse initial_memory (bytes.map fun b => [b])).full_response
      = (write_memory_callback parse initial_memory bytes).full_response := by
  have hjoin : (bytes.map fun b => [b]).flatten = bytes := by
    induction bytes with
    | nil => rfl
    | cons x xs ih => simp [ih]
  have h := feed_chunks_join parse (bytes.map fun b => [b]) initial_memory rfl
  rw [hjoin] at h
  exact ⟨by rw [h], by rw [h]⟩

/-- C6: a line lacking the `data: ` tag, or whose remainder the parser
rejects, or whose parsed document lacks the candidates/content/parts/text
nesting, contributes nothing — `process_line` yields no text, and feeding
such a line leaves the decoder exactly as if only the subsequent bytes had
arrived: no error, decoding continues unchanged. -/
theorem malformed_stream_line_skipped (parse : List Nat → Option Json)
    (line rest : List Nat) (e : List String) (f : String)
    (h0 : (0 : Nat) ∉ line) (h10 : (10 : Nat) ∉ line)
    (hbad : line.take 6 ≠ sse_data_tag
      ∨ parse (line.drop 6) = none
      ∨ ∃ root, parse (line.drop 6) = some root
          ∧ extract_stream_text root = none) :
    process_line parse line = none
    ∧ write_memory_callback parse ⟨[], e, f⟩ (line ++ 10 :: rest)
        = write_memory_callback parse ⟨[], e, f⟩ rest := by
  have hpl : process_line parse line = none := by
    by_cases ht : line.take 6 = sse_data_tag
    · rcases hbad with hb | hb | ⟨root, hr, hn⟩
      · exact absurd ht hb
      · simp [process_line, ht, hb]
      · simp [process_line, ht, hr, hn]
    · simp [process_line, ht]
  refine ⟨hpl, ?_⟩
  have hfn : find_newline (line ++ 10 :: rest) = some line.length := by
    rw [find_newline_append_none line (10 :: rest)
      (find_newline_eq_none line h0 h10) h0]
    simp [find_newline]
  have htake : (line ++ 10 :: rest).take line.length = line :=
    List.take_left line (10 :: rest)
  have hdrop : (line ++ 10 :: rest).drop (line.length + 1) = rest := by
    rw [← List.drop_drop, List.drop_left]
    rfl
  have hls : line_step parse ⟨line ++ 10 :: rest, e, f⟩ line.length
      = ⟨rest, e, f⟩ := by
    simp [line_step, htake, hpl, hdrop]
  have hw : write_memory_callback parse ⟨[], e, f⟩ (line ++ 10 :: rest)
      = drain_all parse ⟨line ++ 10 :: rest, e, f⟩ := by
    simp [write_memory_callback]
  rw [hw, drain_all_step parse ⟨line ++ 10 :: rest, e, f⟩ line.length hfn, hls]
  simp [write_memory_callback]

/-- C6 witness: the skip theorem applied to a concrete tag-less line and a
parser that rejects everything. -/
theorem malformed_stream_line_skipped_witness :
    process_line (fun _ => none) [104, 105] = none
    ∧ write_memory_callback (fun _ => none) ⟨[], [], ""⟩
        ([104, 105] ++ 10 :: [])
      = write_memory_callback (fun _ => none) ⟨[], [], ""⟩ [] :=
  malformed_stream_line_skipped (fun _ => none) [104, 105] [] [] ""
    (by decide) (by decide) (Or.inr (Or.inl rfl))

/-- Unfolding of one read-loop iteration. -/
theorem read_stream_loop_succ (fuel : Nat) (remaining : List Nat)
    (total capacity doubles : Nat) :
    read_stream_loop (fuel + 1) remaining total capacity doubles =
      (if min 1024 remaining.length = 0 then some (total, doubles)
       else
        if capacity - (total + min 1024 remaining.length) < 1024 then
          (if capacity * 2 % 2 ^ 64 ≤ capacity then none
           else read_stream_loop fuel (remaining.drop 1024)
             (total + min 1024 remaining.length) (capacity * 2 % 2 ^ 64)
             (doubles + 1))
        else read_stream_loop fuel (remaining.drop 1024)
          (total + min 1024 remaining.length) capacity doubles) := rfl

/-- When the input length equals the remaining capacity (both 1024-aligned),
the loop reads everything, performs exactly one doubling at the moment the
buffer fills, and succeeds. -/
theorem read_loop_exact_fill :
    ∀ (fuel : Nat) (remaining : List Nat) (total capacity doubles : Nat),
      remaining.length < fuel →
      total + remaining.length = capacity →
      total % 1024 = 0 → capacity % 1024 = 0 →
      total < capacity → 2 ^ 15 ≤ capacity → capacity < 2 ^ 63 →
      read_stream_loop fuel remaining total capacity doubles
        = some (capacity, doubles + 1) := by
  intro fuel
  induction fuel with
  | zero =>
    intro remaining total capacity doubles hfuel _ _ _ _ _ _
    exact absurd hfuel (Nat.not_lt_zero _)
  | succ fuel ih =>
    intro remaining total capacity doubles hfuel hsum ht1024 hc1024 htc h15 h63
    have hlen : 1024 ≤ remaining.length := by omega
    have hbr : min 1024 remaining.length = 1024 := by omega
    rw [read_stream_loop_succ, hbr, if_neg (by omega)]
    by_cases hfill : total + 1024 = capacity
    · rw [if_pos (by omega)]
      have hmod : capacity * 2 % 2 ^ 64 = capacity * 2 :=
        Nat.mod_eq_of_lt (by omega)
      rw [hmod, if_neg (by omega)]
      have hnil : remaining.drop 1024 = [] :=
        List.drop_eq_nil_of_le (by omega)
      obtain ⟨f, rfl⟩ : ∃ f, fuel = f + 1 := ⟨fuel - 1, by omega⟩
      rw [hnil, read_stream_loop_succ, hfill]
      simp
    · rw [if_neg (by omega)]
      have := ih (remaining.drop 1024) (total + 1024) capacity doubles
        (by simp [List.length_drop]; omega)
        (by simp [List.length_drop]; omega)
        (by omega) hc1024 (by omega) h15 h63
      exact this

/-- On every successful run from a power-of-two capacity within the
representable bound, the loop consumed the whole input and the total stayed
at least 1024 below `2 ^ 63` — so an input of length `2 ^ 63` or more can
never succeed: the doubling guard aborts first. -/
theorem read_loop_success_bound :
    ∀ (fuel : Nat) (remaining : List Nat) (total capacity doubles T D : Nat),
      remaining.length < fuel →
      (∃ k, capacity = 2 ^ (15 + k)) → capacity ≤ 2 ^ 63 →
      total + 1024 ≤ capacity →
      read_stream_loop fuel remaining total capacity doubles = some (T, D) →
      T = total + remaining.length ∧ T + 1024 ≤ 2 ^ 63 := by
  intro fuel
  induction fuel with
  | zero =>
    intro remaining total capacity doubles T D hfuel _ _ _ _
    exact absurd hfuel (Nat.not_lt_zero _)
  | succ fuel ih =>
    intro remaining total capacity doubles T D hfuel hpow h63 hcap hrun
    obtain ⟨k, hk⟩ := hpow
    have h15 : 2 ^ 15 ≤ capacity := by
      rw [hk]; exact Nat.pow_le_pow_right (by norm_num) (by omega)
    rw [read_stream_loop_succ] at hrun
    by_cases hz : min 1024 remaining.length = 0
    · rw [if_pos hz] at hrun
      have hTD : total = T ∧ doubles = D := by
        simpa using hrun
      have hr0 : remaining.length = 0 := by omega
      omega
    · rw [if_neg hz] at hrun
      have hfuel' : (remaining.drop 1024).length < fuel := by
        simp [List.length_drop]; omega
      by_cases hdb : capacity - (total + min 1024 remaining.length) < 1024
      · rw [if_pos hdb] at hrun
        by_cases hov : capacity * 2 % 2 ^ 64 ≤ capacity
        · rw [if_pos hov] at hrun
          exact absurd hrun (by simp)
        · rw [if_neg hov] at hrun
          have hkle : 15 + k ≤ 63 := by
            rw [hk] at h63
            exact (Nat.pow_le_pow_iff_right (by norm_num)).mp h63
          have hne : 15 + k ≠ 63 := by
            intro he
            apply hov
            have hcv : capacity = 2 ^ 63 := by rw [hk, he]
            have : capacity * 2 = 2 ^ 64 := by rw [hcv]; norm_num
            rw [this]
            simp
          have hcap62 : capacity ≤ 2 ^ 62 := by
            rw [hk]
            exact Nat.pow_le_pow_right (by norm_num) (by omega)
          have hmod : capacity * 2 % 2 ^ 64 = capacity * 2 := by
            apply Nat.mod_eq_of_lt
            have : (2 : Nat) ^ 62 * 2 < 2 ^ 64 := by norm_num
            omega
          rw [hmod] at hrun
          have hrec := ih (remaining.drop 1024)
            (total + min 1024 remaining.length) (capacity * 2) (doubles + 1)
            T D hfuel'
            ⟨k + 1, by rw [hk, ← pow_succ]; congr 1⟩
            (by have : (2 : Nat) ^ 62 * 2 ≤ 2 ^ 63 := by norm_num
                omega)
            (by omega) hrun
          obtain ⟨hT, hB⟩ := hrec
          constructor
          · rw [hT]; simp [List.length_drop]; omega
          · exact hB
      · rw [if_neg hdb] at hrun
        have hrec := ih (remaining.drop 1024)
          (total + min 1024 remaining.length) capacity doubles
          T D hfuel' ⟨k, hk⟩ h63 (by omega) hrun
        obtain ⟨hT, hB⟩ := hrec
        constructor
        · rw [hT]; simp [List.length_drop]; omega
        · exact hB

/-- C8: a non-seekable source delivering exactly the 32 KiB initial
capacity is ingested with exactly one capacity doubling and its registered
payload is the base64 encoding of exactly the input bytes; and whenever
doubling would exceed the representable `size_t` bound (any source of
`2 ^ 63` bytes or more), ingestion is aborted with no attachment
registered. -/
theorem attachment_ingestion_doubling :
    (∀ input : List Nat, input.length = 32 * 1024 →
        handle_attachment_from_stream input
          = some (base64_encode input, 1))
    ∧ (∀ input : List Nat, 2 ^ 63 ≤ input.length →
        handle_attachment_from_stream input = none) := by
  constructor
  · intro input hlen
    unfold handle_attachment_from_stream
    rw [read_loop_exact_fill (input.length + 1) input 0 (32 * 1024) 0
      (by omega) (by omega) (by norm_num) (by norm_num) (by norm_num)
      (by norm_num) (by norm_num)]
    have htake : input.take (32 * 1024) = input :=
      List.take_of_length_le (by omega)
    simp [htake]
  · intro input hlen
    unfold handle_attachment_from_stream
    cases hrun : read_stream_loop (input.length + 1) input 0 (32 * 1024) 0 with
    | none => rfl
    | some td =>
      obtain ⟨T, D⟩ := td
      have hb := read_loop_success_bound (input.length + 1) input 0
        (32 * 1024) 0 T D (by omega) ⟨0, by norm_num⟩ (by norm_num)
        (by norm_num) hrun
      exfalso
      omega

/-- C8 witness: the ingestion theorem applied to a 32768-byte input and to
an input at the representable bound. -/
theorem attachment_ingestion_doubling_witness :
    handle_attachment_from_stream (List.replicate (32 * 1024) 0)
      = some (base64_encode (List.replicate (32 * 1024) 0), 1)
    ∧ handle_attachment_from_stream (List.replicate (2 ^ 63) 0) = none :=
  ⟨attachment_ingestion_doubling.1 (List.replicate (32 * 1024) 0)
      (by simp only [List.length_replicate]),
   attachment_ingestion_doubling.2 (List.replicate (2 ^ 63) 0)
      (by simp only [List.length_replicate, le_refl])⟩

/-- C9 (spec-modelled): content beginning with the PNG signature bytes
classifies as image/png regardless of filename extension; inconclusive
leading bytes (no known binary signature, e.g. an empty `.json`-named
file) fall back to the filename-extension mapping; and a filename whose
extension has no mapping defaults to generic text. -/
theorem mime_classification_content_first :
    (∀ (content : List Nat) (name : List Char),
        content.take 8 = png_signature →
        sniff_mime_type content name = "image/png")
    ∧ sniff_mime_type [] "x.json".data = "application/json"
    ∧ (∀ (content : List Nat) (name : List Char),
        has_known_signature content = false →
        sniff_mime_type content name = get_mime_type name)
    ∧ get_mime_type "file.zzz".data = "text/plain" := by
  refine ⟨?_, by decide, ?_, by decide⟩
  · intro content name h
    simp [sniff_mime_type, h]
  · intro content name h
    unfold has_known_signature at h
    simp only [Bool.or_eq_false_iff] at h
    obtain ⟨⟨⟨⟨h1, h2⟩, h3⟩, h4⟩, h5⟩ := h
    simp [sniff_mime_type, h1, h2, h3, h4, h5]

/-- C9 witness: the classification theorem applied to PNG-signature
content under a `.txt` name, and to signature-free content. -/
theorem mime_classification_content_first_witness :
    sniff_mime_type png_signature "photo.txt".data = "image/png"
    ∧ sniff_mime_type [104] "notes".data = get_mime_type "notes".data :=
  ⟨mime_classification_content_first.1 png_signature "photo.txt".data rfl,
   mime_classification_content_first.2.2.1 [104] "notes".data (by decide)⟩

/-- Every alphabet index below 64 hits the alphabet. -/
theorem b64_char_mem : ∀ m, m < 64 → b64_char m ∈ b64_chars := by decide

/-- The decoder's character table inverts the encoder's. -/
theorem b64_value_b64_char :
    ∀ m, m < 64 → b64_value (b64_char m) = some m := by decide

/-- No alphabet character is the padding character. -/
theorem b64_char_ne_pad : ∀ m, m < 64 → b64_char m ≠ '=' := by decide

/-- The padding character is outside the alphabet. -/
theorem pad_not_mem_b64 : '=' ∉ b64_chars := by decide

/-- Every character a triple encodes to lies in the alphabet. -/
theorem encode_triple_mem (a b c : Nat) :
    ∀ ch ∈ encode_triple a b c, ch ∈ b64_chars := by
  intro ch hch
  simp [encode_triple] at hch
  rcases hch with h | h | h | h <;> rw [h] <;>
    exact b64_char_mem _ (Nat.mod_lt _ (by norm_num))

/-- No character a triple encodes to is padding. -/
theorem encode_triple_ne_pad (a b c : Nat) :
    ∀ ch ∈ encode_triple a b c, ch ≠ '=' := by
  intro ch hch heq
  rw [heq] at hch
  exact pad_not_mem_b64 (encode_triple_mem a b c '=' hch)

/-- The grouped encoding stays inside the alphabet. -/
theorem encode_groups_mem :
    ∀ (n : Nat) (l : List Nat), l.length ≤ n →
      ∀ ch ∈ encode_groups l, ch ∈ b64_chars := by
  intro n
  induction n with
  | zero =>
    intro l h ch hch
    have hnil : l = [] := List.eq_nil_of_length_eq_zero (Nat.le_zero.mp h)
    rw [hnil] at hch
    simp [encode_groups] at hch
  | succ n ih =>
    intro l h ch hch
    rcases l with _ | ⟨a, _ | ⟨b, _ | ⟨c, rest⟩⟩⟩
    · simp [encode_groups] at hch
    · exact encode_triple_mem a 0 0 ch hch
    · exact encode_triple_mem a b 0 ch hch
    · rw [encode_groups] at hch
      rcases List.mem_append.mp hch with hm | hm
      · exact encode_triple_mem a b c ch hm
      · exact ih rest (by simp [List.length_cons] at h; omega) ch hm

/-- The grouped encoding is four characters per started triple. -/
theorem encode_groups_length :
    ∀ (n : Nat) (l : List Nat), l.length ≤ n →
      (encode_groups l).length = 4 * ((l.length + 2) / 3) := by
  intro n
  induction n with
  | zero =>
    intro l h
    have hnil : l = [] := List.eq_nil_of_length_eq_zero (Nat.le_zero.mp h)
    rw [hnil]
    rfl
  | succ n ih =>
    intro l h
    rcases l with _ | ⟨a, _ | ⟨b, _ | ⟨c, rest⟩⟩⟩
    · simp [encode_groups]
    · simp [encode_groups, encode_triple]
    · simp [encode_groups, encode_triple]
    · have hr := ih rest (by simp [List.length_cons] at h; omega)
      rw [encode_groups, List.length_append, hr]
      simp [encode_triple, List.length_cons]
      omega

/-- `mod_table` agrees with the claim's `(3 - n mod 3) mod 3`. -/
theorem pad_length_eq (n : Nat) : pad_length n = (3 - n % 3) % 3 := by
  have h : n % 3 = 0 ∨ n % 3 = 1 ∨ n % 3 = 2 := by omega
  rcases h with h | h | h <;> simp [pad_length, h]

/-- At most two characters are ever overwritten with padding. -/
theorem pad_length_le (n : Nat) : pad_length n ≤ 2 := by
  have h : n % 3 = 0 ∨ n % 3 = 1 ∨ n % 3 = 2 := by omega
  rcases h with h | h | h <;> simp [pad_length, h]

/-- Padding never exceeds the grouped encoding's length. -/
theorem pad_le_groups_length (l : List Nat) :
    pad_length l.length ≤ (encode_groups l).length := by
  cases l with
  | nil => simp [encode_groups, pad_length]
  | cons x xs =>
    have h1 := pad_length_le (x :: xs).length
    have h2 := encode_groups_length (x :: xs).length (x :: xs) (le_refl _)
    have h3 : 1 ≤ ((x :: xs).length + 2) / 3 := by
      simp [List.length_cons]
      omega
    omega

/-- `dropWhile` for padding leaves a padding-free list untouched. -/
theorem dropWhile_pad_eq_self (l : List Char) (h : ∀ ch ∈ l, ch ≠ '=') :
    l.dropWhile (· == '=') = l := by
  cases l with
  | nil => rfl
  | cons x xs =>
    have hx : (x == '=') = false := by
      simp
      exact h x (by simp)
    simp [List.dropWhile_cons, hx]

/-- Stripping padding passes over a padding-free head. -/
theorem strip_padding_append (l t : List Char) (h : ∀ ch ∈ l, ch ≠ '=') :
    strip_padding (l ++ t) = l ++ strip_padding t := by
  unfold strip_padding
  rw [List.reverse_append, List.dropWhile_append]
  have hre : ∀ ch ∈ l.reverse, ch ≠ '=' := by
    intro ch hch
    exact h ch (List.mem_reverse.mp hch)
  by_cases he : (t.reverse.dropWhile (· == '=')).isEmpty
  · rw [if_pos he, dropWhile_pad_eq_self l.reverse hre, List.reverse_reverse]
    have hnil : t.reverse.dropWhile (· == '=') = [] := by
      cases hd : t.reverse.dropWhile (· == '=') with
      | nil => rfl
      | cons y ys => rw [hd] at he; simp at he
    rw [hnil]
    simp
  · rw [if_neg he, List.reverse_append, List.reverse_reverse]

/-- Stripping a pure padding run yields the empty list. -/
theorem strip_padding_replicate (n : Nat) :
    strip_padding (List.replicate n '=') = [] := by
  unfold strip_padding
  rw [List.reverse_replicate]
  have h : (List.replicate n '=').dropWhile (· == '=') = [] := by
    induction n with
    | zero => rfl
    | succ k ih => rw [List.replicate_succ, List.dropWhile_cons]; simp [ih]
  rw [h]
  rfl

/-- Encoding splits off its leading triple. -/
theorem base64_encode_cons3 (a b c : Nat) (rest : List Nat) :
    base64_encode (a :: b :: c :: rest)
      = encode_triple a b c ++ base64_encode rest := by
  have hpad : pad_length (a :: b :: c :: rest).length
      = pad_length rest.length := by
    have hmod : (a :: b :: c :: rest).length % 3 = rest.length % 3 := by
      simp [List.length_cons]
      omega
    simp only [pad_length]
    rw [hmod]
  simp only [base64_encode, encode_groups]
  rw [hpad, List.length_append, List.take_append_eq_append_take]
  have he3 : (encode_triple a b c).length = 4 := by simp [encode_triple]
  have hple := pad_le_groups_length rest
  have htk1 : (encode_triple a b c).length
      ≤ (encode_triple a b c).length + (encode_groups rest).length
        - pad_length rest.length := by omega
  rw [List.take_of_length_le htk1]
  have harg : (encode_triple a b c).length + (encode_groups rest).length
      - pad_length rest.length - (encode_triple a b c).length
      = (encode_groups rest).length - pad_length rest.length := by omega
  rw [harg, List.append_assoc]

/-- Recovering three octets from the four sextets of their triple. -/
theorem sextet_recover (a b c : Nat) (ha : a < 256) (hb : b < 256)
    (hc : c < 256) :
    (a * 65536 + b * 256 + c) / 262144 % 64 * 4
      + (a * 65536 + b * 256 + c) / 4096 % 64 / 16 = a
    ∧ (a * 65536 + b * 256 + c) / 4096 % 64 % 16 * 16
      + (a * 65536 + b * 256 + c) / 64 % 64 / 4 = b
    ∧ (a * 65536 + b * 256 + c) / 64 % 64 % 4 * 64
      + (a * 65536 + b * 256 + c) % 64 = c := by
  have d1 : (a * 65536 + b * 256 + c) / 262144 = a / 4 := by omega
  have d2 : (a * 65536 + b * 256 + c) / 4096 = a * 16 + b / 16 := by omega
  have d3 : (a * 65536 + b * 256 + c) / 64 = a * 1024 + b * 4 + c / 64 := by
    omega
  have d4 : (a * 65536 + b * 256 + c) % 64 = c % 64 := by omega
  rw [d1, d2, d3, d4]
  have m1 : a / 4 % 64 = a / 4 := by omega
  have m2 : (a * 16 + b / 16) % 64 = a % 4 * 16 + b / 16 := by omega
  have m3 : (a * 1024 + b * 4 + c / 64) % 64 = b % 16 * 4 + c / 64 := by omega
  rw [m1, m2, m3]
  refine ⟨?_, ?_, ?_⟩
  · have e1 : (a % 4 * 16 + b / 16) / 16 = a % 4 := by omega
    rw [e1]
    omega
  · have e1 : (a % 4 * 16 + b / 16) % 16 = b / 16 := by omega
    have e2 : (b % 16 * 4 + c / 64) / 4 = b % 16 := by omega
    rw [e1, e2]
    omega
  · have e1 : (b % 16 * 4 + c / 64) % 4 = c / 64 := by omega
    rw [e1]
    omega

/-- The round-trip: decoding the encoding of any byte list recovers it. -/
theorem base64_roundtrip :
    ∀ (n : Nat) (l : List Nat), l.length ≤ n → (∀ x ∈ l, x < 256) →
      base64_decode (base64_encode l) = some l := by
  intro n
  induction n with
  | zero =>
    intro l h _
    have hnil : l = [] := List.eq_nil_of_length_eq_zero (Nat.le_zero.mp h)
    rw [hnil]
    rfl
  | succ n ih =>
    intro l hlen hbound
    rcases l with _ | ⟨a, _ | ⟨b, _ | ⟨c, rest⟩⟩⟩
    · rfl
    · have ha : a < 256 := hbound a (by simp)
      have h1 : (a * 65536 + 0 * 256 + 0) / 262144 % 64 < 64 :=
        Nat.mod_lt _ (by norm_num)
      have h2 : (a * 65536 + 0 * 256 + 0) / 4096 % 64 < 64 :=
        Nat.mod_lt _ (by norm_num)
      have henc : base64_encode [a]
          = [b64_char ((a * 65536 + 0 * 256 + 0) / 262144 % 64),
             b64_char ((a * 65536 + 0 * 256 + 0) / 4096 % 64)]
            ++ List.replicate 2 '=' := rfl
      have hne : ∀ ch ∈ [b64_char ((a * 65536 + 0 * 256 + 0) / 262144 % 64),
          b64_char ((a * 65536 + 0 * 256 + 0) / 4096 % 64)], ch ≠ '=' := by
        intro ch hch
        simp only [List.mem_cons, List.not_mem_nil, or_false] at hch
        rcases hch with h | h <;> rw [h]
        · exact b64_char_ne_pad _ h1
        · exact b64_char_ne_pad _ h2
      obtain ⟨w1, -, -⟩ := sextet_recover a 0 0 ha (by norm_num) (by norm_num)
      unfold base64_decode
      rw [henc, strip_padding_append _ _ hne, strip_padding_replicate,
        List.append_nil]
      simp only [decode_groups, b64_value_b64_char _ h1,
        b64_value_b64_char _ h2]
      rw [w1]
    · have ha : a < 256 := hbound a (by simp)
      have hb : b < 256 := hbound b (by simp)
      have h1 : (a * 65536 + b * 256 + 0) / 262144 % 64 < 64 :=
        Nat.mod_lt _ (by norm_num)
      have h2 : (a * 65536 + b * 256 + 0) / 4096 % 64 < 64 :=
        Nat.mod_lt _ (by norm_num)
      have h3 : (a * 65536 + b * 256 + 0) / 64 % 64 < 64 :=
        Nat.mod_lt _ (by norm_num)
      have henc : base64_encode [a, b]
          = [b64_char ((a * 65536 + b * 256 + 0) / 262144 % 64),
             b64_char ((a * 65536 + b * 256 + 0) / 4096 % 64),
             b64_char ((a * 65536 + b * 256 + 0) / 64 % 64)]
            ++ List.replicate 1 '=' := rfl
      have hne : ∀ ch ∈ [b64_char ((a * 65536 + b * 256 + 0) / 262144 % 64),
          b64_char ((a * 65536 + b * 256 + 0) / 4096 % 64),
          b64_char ((a * 65536 + b * 256 + 0) / 64 % 64)], ch ≠ '=' := by
        intro ch hch
        simp only [List.mem_cons, List.not_mem_nil, or_false] at hch
        rcases hch with h | h | h <;> rw [h]
        · exact b64_char_ne_pad _ h1
        · exact b64_char_ne_pad _ h2
        · exact b64_char_ne_pad _ h3
      obtain ⟨w1, w2, -⟩ := sextet_recover a b 0 ha hb (by norm_num)
      unfold base64_decode
      rw [henc, strip_padding_append _ _ hne, strip_padding_replicate,
        List.append_nil]
      simp only [decode_groups, b64_value_b64_char _ h1,
        b64_value_b64_char _ h2, b64_value_b64_char _ h3]
      rw [w1, w2]
    · have ha : a < 256 := hbound a (by simp)
      have hb : b < 256 := hbound b (by simp)
      have hc : c < 256 := hbound c (by simp)
      have hrb : ∀ x ∈ rest, x < 256 := by
        intro x hx
        exact hbound x (by simp [hx])
      have hrl : rest.length ≤ n := by
        simp [List.length_cons] at hlen
        omega
      have hih := ih rest hrl hrb
      have h1 : (a * 65536 + b * 256 + c) / 262144 % 64 < 64 :=
        Nat.mod_lt _ (by norm_num)
      have h2 : (a * 65536 + b * 256 + c) / 4096 % 64 < 64 :=
        Nat.mod_lt _ (by norm_num)
      have h3 : (a * 65536 + b * 256 + c) / 64 % 64 < 64 :=
        Nat.mod_lt _ (by norm_num)
      have h4 : (a * 65536 + b * 256 + c) % 64 < 64 :=
        Nat.mod_lt _ (by norm_num)
      obtain ⟨w1, w2, w3⟩ := sextet_recover a b c ha hb hc
      unfold base64_decode at hih ⊢
      rw [base64_encode_cons3,
        strip_padding_append _ _ (encode_triple_ne_pad a b c)]
      simp only [encode_triple, List.cons_append, List.nil_append]
      simp only [decode_groups, b64_value_b64_char _ h1,
        b64_value_b64_char _ h2, b64_value_b64_char _ h3,
        b64_value_b64_char _ h4, hih]
      rw [w1, w2, w3]
      simp

/-- C10: for every byte list of length n, the encoder's output has length
exactly `4 * ceil(n / 3)`, consists only of alphabet characters and `'='`,
carries exactly `(3 - n mod 3) mod 3` trailing padding characters, and
decodes back to the original bytes. -/
theorem base64_encode_props :
    ∀ l : List Nat, (∀ x ∈ l, x < 256) →
      (base64_encode l).length = 4 * ((l.length + 2) / 3)
      ∧ (∀ ch ∈ base64_encode l, ch ∈ b64_chars ∨ ch = '=')
      ∧ (∃ core, base64_encode l
            = core ++ List.replicate ((3 - l.length % 3) % 3) '='
            ∧ ∀ ch ∈ core, ch ≠ '=')
      ∧ base64_decode (base64_encode l) = some l := by
  intro l hb
  have hglen := encode_groups_length l.length l (le_refl _)
  have hple := pad_le_groups_length l
  refine ⟨?_, ?_, ?_, base64_roundtrip l.length l (le_refl _) hb⟩
  · unfold base64_encode
    rw [List.length_append, List.length_take, List.length_replicate]
    omega
  · intro ch hch
    unfold base64_encode at hch
    rcases List.mem_append.mp hch with h | h
    · exact Or.inl
        (encode_groups_mem l.length l (le_refl _) ch (List.mem_of_mem_take h))
    · exact Or.inr (List.eq_of_mem_replicate h)
  · refine ⟨(encode_groups l).take
        ((encode_groups l).length - pad_length l.length), ?_, ?_⟩
    · unfold base64_encode
      rw [pad_length_eq]
    · intro ch hch heq
      rw [heq] at hch
      exact pad_not_mem_b64
        (encode_groups_mem l.length l (le_refl _) '='
          (List.mem_of_mem_take hch))

/-- C10 witness: the encoder properties applied to the bytes of "Man". -/
theorem base64_encode_props_witness :
    (base64_encode [77, 97, 110]).length = 4 * (([77, 97, 110].length + 2) / 3)
    ∧ (∀ ch ∈ base64_encode [77, 97, 110], ch ∈ b64_chars ∨ ch = '=')
    ∧ (∃ core, base64_encode [77, 97, 110]
          = core ++ List.replicate ((3 - [77, 97, 110].length % 3) % 3) '='
          ∧ ∀ ch ∈ core, ch ≠ '=')
    ∧ base64_decode (base64_encode [77, 97, 110]) = some [77, 97, 110] :=
  base64_encode_props [77, 97, 110] (by decide)

end GeminiCli
